import Mathlib

/-!
Verification of the Hilbert-curve conversion library (`hilbert.go`).

The Go source consists of three functions operating on machine integers:

* `XYToD(n, x, y int) (d int)` — coordinate to curve distance;
* `DToXY(n, d int) (x, y int)` — curve distance to coordinate;
* `rot(n, rx, ry int, x, y *int)` — the shared rotate/reflect transform.

Shallow embedding: Go `int` is modelled as unbounded `Int` (the spec places
no fixed bound on `n`; all claims quantify over all powers of two, so the
idealised-width reading is the only one under which they are statable).
Go `/` truncates toward zero, which is `Int.tdiv`; Go `&` and `^` are
twos-complement bitwise and / xor, which are `Int.land` and `Int.xor`.

The two loops are embedded as well-founded recursions (`xyToDLoop`,
`dToXYLoop`).  In addition, fuel-indexed step-for-step copies of the Go
loops (`xyToDFuel`, `dToXYFuel`) support the termination claim, and
structurally recursive versions specialised to power-of-two scales
(`xy2dIters`, `d2xyRun`) support concrete evaluation; they are proved
equal to the loop embeddings below.
-/

namespace Hilbert

/-- Embeds Go `rot(n, rx, ry, &x, &y)`: if `ry == 0` then (if `rx == 1`,
first reflect `x = n-1-x; y = n-1-y`), then swap `x` and `y`; otherwise
leave the pair unchanged.  The returned pair is the final `(x, y)`. -/
def rot (n rx ry x y : Int) : Int × Int :=
  if ry = 0 then
    if rx = 1 then
      (n - 1 - y, n - 1 - x)
    else
      (y, x)
  else
    (x, y)

/-- One iteration of the `XYToD` loop body at scale `s`: the quadrant bits
`rx = (x&s > 0)`, `ry = (y&s > 0)` (as the integers `1`/`0`, per the Go
conditionals), the transformed pair `rot(s, rx, ry, x, y)`, and the amount
`s*s*((3*rx)^ry)` that the body adds to `d`. -/
def xy2dStep (s x y : Int) : (Int × Int) × Int :=
  let rx : Int := if 0 < Int.land x s then 1 else 0
  let ry : Int := if 0 < Int.land y s then 1 else 0
  (rot s rx ry x y, s * s * Int.xor (3 * rx) ry)

/-- Embeds the loop of Go `XYToD`: `for s := n/2; s > 0; s /= 2` with body
`xy2dStep`.  The loop variable `s` strictly decreases toward `0` while
positive, which gives termination. -/
def xyToDLoop (s x y d : Int) : Int :=
  if _h : 0 < s then
    xyToDLoop (Int.tdiv s 2) (xy2dStep s x y).1.1 (xy2dStep s x y).1.2
      (d + (xy2dStep s x y).2)
  else d
termination_by s.toNat
decreasing_by
  rw [Int.tdiv_eq_ediv (by omega) (by omega)]
  omega

/-- Embeds Go `XYToD(n, x, y)`: runs the loop from `s = n/2` with `d = 0`. -/
def XYToD (n x y : Int) : Int :=
  xyToDLoop (Int.tdiv n 2) x y 0

/-- One iteration of the `DToXY` loop body at scale `s` with working copy
`u`, applied to the accumulated coordinate pair: `rx = 1 & (u/2)`,
`ry = 1 & (u ^ rx)`, then `rot(s, rx, ry, x, y)` followed by the offsets
`x += s*rx`, `y += s*ry`. -/
def d2xyStep (s u : Int) (p : Int × Int) : Int × Int :=
  let rx := Int.land 1 (Int.tdiv u 2)
  let ry := Int.land 1 (Int.xor u rx)
  let q := rot s rx ry p.1 p.2
  (q.1 + s * rx, q.2 + s * ry)

/-- Embeds the loop of Go `DToXY`: `for s := 1; s < n; s *= 2` with body
`d2xyStep` followed by `t /= 4`.  The extra conjunct `0 < s` in the guard
records the loop invariant established by the entry value `s = 1`
(doubling preserves positivity), which is what makes the loop
well-founded; at every state reachable from `DToXY` the guard agrees with
the Go guard `s < n`. -/
def dToXYLoop (n s t x y : Int) : Int × Int :=
  if _h : 0 < s ∧ s < n then
    dToXYLoop n (s * 2) (Int.tdiv t 4) (d2xyStep s t (x, y)).1 (d2xyStep s t (x, y)).2
  else (x, y)
termination_by (n - s).toNat
decreasing_by omega

/-- Embeds Go `DToXY(n, d)`: `t = d`, `x = y = 0`, loop from `s = 1`. -/
def DToXY (n d : Int) : Int × Int :=
  dToXYLoop n 1 d 0 0

/-- Fuel-indexed copy of the `XYToD` loop, step for step: `none` means the
fuel ran out before the loop condition `s > 0` failed. -/
def xyToDFuel : Nat → Int → Int → Int → Int → Option Int
  | 0, _, _, _, _ => none
  | fuel+1, s, x, y, d =>
    if 0 < s then
      xyToDFuel fuel (Int.tdiv s 2) (xy2dStep s x y).1.1 (xy2dStep s x y).1.2
        (d + (xy2dStep s x y).2)
    else some d

/-- Fuel-indexed copy of the `DToXY` loop with the exact Go guard `s < n`:
`none` means the fuel ran out before the loop condition failed. -/
def dToXYFuel : Nat → Int → Int → Int → Int → Int → Option (Int × Int)
  | 0, _, _, _, _, _ => none
  | fuel+1, n, s, t, x, y =>
    if s < n then
      dToXYFuel fuel n (s * 2) (Int.tdiv t 4) (d2xyStep s t (x, y)).1 (d2xyStep s t (x, y)).2
    else some (x, y)

/-- The `XYToD` loop specialised to power-of-two scales, as a structural
recursion on the number of remaining iterations: `xy2dIters m x y d` runs
the loop body for scales `2^(m-1), …, 2, 1`. -/
def xy2dIters : Nat → Int → Int → Int → Int
  | 0, _, _, d => d
  | m+1, x, y, d =>
    xy2dIters m (xy2dStep (2^m) x y).1.1 (xy2dStep (2^m) x y).1.2
      (d + (xy2dStep (2^m) x y).2)

/-- The `DToXY` loop as a structural recursion on the number of remaining
iterations: `d2xyRun m i t x y` runs the loop body `m` times starting at
scale `s = 2^i`. -/
def d2xyRun : Nat → Nat → Int → Int → Int → Int × Int
  | 0, _, _, x, y => (x, y)
  | m+1, i, t, x, y =>
    d2xyRun m (i+1) (Int.tdiv t 4) (d2xyStep (2^i) t (x, y)).1 (d2xyStep (2^i) t (x, y)).2

/-- `DToXY` at grid order `2^m`, via the structural loop copy. -/
def d2xy (m : Nat) (t : Int) : Int × Int :=
  d2xyRun m 0 t 0 0

/-! ### Arithmetic facts about the embedded bitwise operations -/

theorem two_pow_cast (m : Nat) : ((2^m : Nat) : Int) = 2^m := by
  push_cast
  norm_num

theorem four_pow_cast (m : Nat) : ((4^m : Nat) : Int) = 4^m := by
  push_cast
  norm_num

theorem pow2_sq (k : Nat) : ((2:Int)^k)^2 = 4^k := by
  rw [show (4:Int) = 2^2 by norm_num, ← pow_mul, ← pow_mul, Nat.mul_comm]

theorem land_ofNat (a b : Nat) : Int.land (a : Int) (b : Int) = ((a &&& b : Nat) : Int) :=
  rfl

theorem land_negSucc_ofNat (a b : Nat) :
    Int.land (Int.negSucc a) (b : Int) = ((Nat.ldiff b a : Nat) : Int) :=
  rfl

theorem nat_and_two_pow (a j : Nat) :
    a &&& 2^j = if a.testBit j then 2^j else 0 := by
  apply Nat.eq_of_testBit_eq
  intro i
  by_cases hij : j = i
  · subst hij
    cases hj : a.testBit j <;>
      simp [Nat.testBit_and, Nat.testBit_two_pow, hj]
  · cases hj : a.testBit j <;>
      simp [Nat.testBit_and, Nat.testBit_two_pow, hij, Nat.zero_testBit]

theorem nat_ldiff_two_pow (a j : Nat) :
    Nat.ldiff (2^j) a = if a.testBit j then 0 else 2^j := by
  apply Nat.eq_of_testBit_eq
  intro i
  rw [Nat.testBit_ldiff]
  by_cases hij : j = i
  · subst hij
    cases hj : a.testBit j <;> simp [Nat.testBit_two_pow, hj, Nat.zero_testBit]
  · cases hj : a.testBit j <;> simp [Nat.testBit_two_pow, hij, Nat.zero_testBit]

/-- The single-bit mask `x & 2^j` on twos-complement integers, expressed
through Euclidean division: it is `2^j` exactly when bit `j` of `x` is set. -/
theorem land_two_pow_eq (x : Int) (j : Nat) :
    Int.land x (2^j) = if x / 2^j % 2 = 1 then 2^j else 0 := by
  rw [← two_pow_cast j]
  cases x with
  | ofNat a =>
    rw [show Int.ofNat a = (a : Int) from rfl, land_ofNat, nat_and_two_pow]
    have h1 : (a : Int) / ((2 ^ j : Nat) : Int) % 2 = ((a / 2 ^ j % 2 : Nat) : Int) := by
      norm_cast
    by_cases h : a / 2^j % 2 = 1
    · have hbit : a.testBit j = true := by
        rw [Nat.testBit_to_div_mod]; exact decide_eq_true h
      have hint : (a : Int) / ((2 ^ j : Nat) : Int) % 2 = 1 := by
        rw [h1]; exact_mod_cast h
      rw [hbit, if_pos rfl, if_pos hint]
    · have hbit : a.testBit j = false := by
        rw [Nat.testBit_to_div_mod]; exact decide_eq_false h
      have hint : ¬ (a : Int) / ((2 ^ j : Nat) : Int) % 2 = 1 := by
        rw [h1]; exact_mod_cast h
      rw [hbit, if_neg (by simp : ¬ (false = true)), if_neg hint]
      simp
  | negSucc a =>
    rw [land_negSucc_ofNat, nat_ldiff_two_pow, Nat.testBit_to_div_mod]
    have hpos : (0:Int) < ((2 ^ j : Nat) : Int) := by positivity
    have hlt : a % 2^j < 2^j := Nat.mod_lt a (Nat.two_pow_pos j)
    have hc : ((a % 2^j : Nat) : Int) < ((2^j : Nat) : Int) := by exact_mod_cast hlt
    have hc0 : (0:Int) ≤ ((a % 2^j : Nat) : Int) := by positivity
    have hdecomp : ((2^j : Nat) : Int) - 1 - ((a % 2^j : Nat) : Int)
        + ((2^j : Nat) : Int) * (-((a / 2^j : Nat) : Int) - 1) = Int.negSucc a := by
      rw [Int.negSucc_eq]
      have hnat := Nat.div_add_mod a (2^j)
      have hcast : ((2^j : Nat) : Int) * ((a / 2^j : Nat) : Int) + ((a % 2^j : Nat) : Int)
          = (a : Int) := by exact_mod_cast hnat
      linear_combination -hcast
    have hq : Int.negSucc a / ((2^j : Nat) : Int) = -((a / 2^j : Nat) : Int) - 1 :=
      ((Int.ediv_emod_unique hpos).mpr ⟨hdecomp, by linarith, by linarith⟩).1
    rw [hq]
    generalize a / 2^j = qn
    by_cases h : qn % 2 = 1
    · have hcond : ¬ (-((qn : Nat) : Int) - 1) % 2 = 1 := by omega
      simp [h, hcond]
    · have hcond : (-((qn : Nat) : Int) - 1) % 2 = 1 := by omega
      simp [h, hcond]

/-- Bit `j` of `x` only depends on `x` modulo `2^(j+1)`. -/
theorem ediv_pow_emod_two (x : Int) (j : Nat) :
    x / 2^j % 2 = x % 2^(j+1) / 2^j % 2 := by
  conv_lhs => rw [← Int.ediv_add_emod x (2^(j+1))]
  have h1 : (2:Int)^(j+1) * (x / 2^(j+1)) + x % 2^(j+1)
      = x % 2^(j+1) + (2 * (x / 2^(j+1))) * 2^j := by ring
  rw [h1, Int.add_mul_ediv_right _ _ (pow_pos (by norm_num : (0:Int) < 2) j).ne']
  have h2 : x % 2^(j+1) / 2^j + 2 * (x / 2^(j+1))
      = x % 2^(j+1) / 2^j + (x / 2^(j+1)) * 2 := by ring
  rw [h2, Int.add_mul_emod_self]

theorem land_two_pow_congr {x y : Int} (j : Nat) (h : x % 2^(j+1) = y % 2^(j+1)) :
    Int.land x (2^j) = Int.land y (2^j) := by
  rw [land_two_pow_eq, land_two_pow_eq, ediv_pow_emod_two, h, ← ediv_pow_emod_two]

theorem land_two_pow_of_lt {x : Int} {j : Nat} (h0 : 0 ≤ x) (h1 : x < 2^j) :
    Int.land x (2^j) = 0 := by
  rw [land_two_pow_eq, Int.ediv_eq_zero_of_lt h0 h1]
  norm_num

theorem land_two_pow_of_ge {x : Int} {j : Nat} (h0 : 2^j ≤ x) (h1 : x < 2^(j+1)) :
    Int.land x (2^j) = 2^j := by
  have hp : (0:Int) < 2^j := pow_pos (by norm_num) j
  have hle : 1 ≤ x / 2^j := (Int.le_ediv_iff_mul_le hp).mpr (by linarith)
  have hlt : x / 2^j < 2 := Int.ediv_lt_of_lt_mul hp (by rw [pow_succ] at h1; linarith)
  have hq : x / 2^j = 1 := by omega
  rw [land_two_pow_eq, hq]
  norm_num

/-- The extraction `rx = 1 & (t/2)` on a nonnegative working copy. -/
theorem decode_rx (u : Int) (h : 0 ≤ u) : Int.land 1 (Int.tdiv u 2) = u / 2 % 2 := by
  obtain ⟨a, rfl⟩ := Int.eq_ofNat_of_zero_le h
  rw [show Int.tdiv (a : Int) 2 = ((a / 2 : Nat) : Int) from rfl,
    show (1:Int) = ((1:Nat) : Int) from rfl, land_ofNat]
  rw [Nat.and_comm, Nat.and_one_is_mod]
  push_cast
  rfl

/-- The extraction `ry = 1 & (t ^ rx)` on a nonnegative working copy. -/
theorem decode_ry (u : Int) (h : 0 ≤ u) :
    Int.land 1 (Int.xor u (Int.land 1 (Int.tdiv u 2))) = (u % 2 + u / 2 % 2) % 2 := by
  obtain ⟨a, rfl⟩ := Int.eq_ofNat_of_zero_le h
  rw [show Int.tdiv (a : Int) 2 = ((a / 2 : Nat) : Int) from rfl,
    show (1:Int) = ((1:Nat) : Int) from rfl, land_ofNat,
    Nat.and_comm 1 (a / 2), Nat.and_one_is_mod,
    show Int.xor (a : Int) ((a / 2 % 2 : Nat) : Int) = ((a ^^^ (a / 2 % 2) : Nat) : Int) from rfl,
    land_ofNat, Nat.and_comm, Nat.and_one_is_mod]
  have hx : (a ^^^ a / 2 % 2) % 2 = (a % 2 + a / 2 % 2) % 2 := by
    have h1 : (a ^^^ a / 2 % 2) % 2 = (a ^^^ a / 2 % 2) &&& 1 := (Nat.and_one_is_mod _).symm
    rw [h1, Nat.and_xor_distrib_right, Nat.and_one_is_mod, Nat.and_one_is_mod,
      Nat.mod_mod_of_dvd (a / 2) (dvd_refl 2)]
    rcases Nat.mod_two_eq_zero_or_one a with h2 | h2 <;>
      rcases Nat.mod_two_eq_zero_or_one (a / 2) with h3 | h3 <;>
      rw [h2, h3] <;> decide
  rw [hx]
  push_cast
  rfl

theorem int_xor_00 : Int.xor 0 0 = 0 := by decide

theorem int_xor_01 : Int.xor 0 1 = 1 := by decide

theorem int_xor_31 : Int.xor 3 1 = 2 := by decide

theorem int_xor_30 : Int.xor 3 0 = 3 := by decide

theorem emod_pow_step {x y : Int} (m : Nat) (h : x % 2^(m+1) = y % 2^(m+1)) :
    x % 2^m = y % 2^m := by
  have hd : ((2:Int)^m) ∣ 2^(m+1) := pow_dvd_pow 2 (Nat.le_succ m)
  rw [← Int.emod_emod_of_dvd x hd, h, Int.emod_emod_of_dvd y hd]

/-! ### Evaluating the loop bodies -/

/-- The `DToXY` loop body decodes the two low bits of the nonnegative
working copy into one of the four quadrant transforms. -/
theorem d2xyStep_eval (s u : Int) (p : Int × Int) (hu : 0 ≤ u) :
    d2xyStep s u p =
      if u % 4 = 0 then (p.2, p.1)
      else if u % 4 = 1 then (p.1, p.2 + s)
      else if u % 4 = 2 then (p.1 + s, p.2 + s)
      else (2 * s - 1 - p.2, s - 1 - p.1) := by
  simp only [d2xyStep]
  rw [decode_ry u hu, decode_rx u hu]
  rcases (by omega : u % 4 = 0 ∨ u % 4 = 1 ∨ u % 4 = 2 ∨ u % 4 = 3) with hc | hc | hc | hc
  · rw [(by omega : (u % 2 + u / 2 % 2) % 2 = 0), (by omega : u / 2 % 2 = 0), hc]
    norm_num [rot]
  · rw [(by omega : (u % 2 + u / 2 % 2) % 2 = 1), (by omega : u / 2 % 2 = 0), hc]
    norm_num [rot]
  · rw [(by omega : (u % 2 + u / 2 % 2) % 2 = 1), (by omega : u / 2 % 2 = 1), hc]
    norm_num [rot]
  · rw [(by omega : (u % 2 + u / 2 % 2) % 2 = 0), (by omega : u / 2 % 2 = 1), hc]
    norm_num [rot, Prod.ext_iff]
    ring

/-- `XYToD` loop body when both coordinates are in the low half. -/
theorem xy2dStep_00 {x y : Int} (m : Nat) (hx0 : 0 ≤ x) (hx : x < 2^m)
    (hy0 : 0 ≤ y) (hy : y < 2^m) :
    xy2dStep (2^m) x y = ((y, x), 0) := by
  simp only [xy2dStep, rot]
  rw [land_two_pow_of_lt hx0 hx, land_two_pow_of_lt hy0 hy]
  norm_num [int_xor_00]

/-- `XYToD` loop body when `x` is in the low and `y` in the high half. -/
theorem xy2dStep_01 {x y : Int} (m : Nat) (hx0 : 0 ≤ x) (hx : x < 2^m)
    (hy0 : 2^m ≤ y) (hy : y < 2^(m+1)) :
    xy2dStep (2^m) x y = ((x, y), 2^m * 2^m) := by
  have hp : (0:Int) < 2^m := pow_pos (by norm_num) m
  simp only [xy2dStep, rot]
  rw [land_two_pow_of_lt hx0 hx, land_two_pow_of_ge hy0 hy]
  norm_num [int_xor_01, hp]

/-- `XYToD` loop body when both coordinates are in the high half. -/
theorem xy2dStep_11 {x y : Int} (m : Nat) (hx0 : 2^m ≤ x) (hx : x < 2^(m+1))
    (hy0 : 2^m ≤ y) (hy : y < 2^(m+1)) :
    xy2dStep (2^m) x y = ((x, y), 2^m * 2^m * 2) := by
  have hp : (0:Int) < 2^m := pow_pos (by norm_num) m
  simp only [xy2dStep, rot]
  rw [land_two_pow_of_ge hx0 hx, land_two_pow_of_ge hy0 hy]
  norm_num [int_xor_31, hp]

/-- `XYToD` loop body when `x` is in the high and `y` in the low half. -/
theorem xy2dStep_10 {x y : Int} (m : Nat) (hx0 : 2^m ≤ x) (hx : x < 2^(m+1))
    (hy0 : 0 ≤ y) (hy : y < 2^m) :
    xy2dStep (2^m) x y = ((2^m - 1 - y, 2^m - 1 - x), 2^m * 2^m * 3) := by
  have hp : (0:Int) < 2^m := pow_pos (by norm_num) m
  simp only [xy2dStep, rot]
  rw [land_two_pow_of_ge hx0 hx, land_two_pow_of_lt hy0 hy]
  norm_num [int_xor_30, hp]

/-- The `XYToD` loop body only depends on the coordinates modulo `2^(s+1)`
at scale `2^s`, and preserves congruences of the pair. -/
theorem xy2dStep_congr {x y w z : Int} (m : Nat)
    (hx : x % 2^(m+1) = w % 2^(m+1)) (hy : y % 2^(m+1) = z % 2^(m+1)) :
    (xy2dStep (2^m) x y).2 = (xy2dStep (2^m) w z).2 ∧
      (xy2dStep (2^m) x y).1.1 % 2^m = (xy2dStep (2^m) w z).1.1 % 2^m ∧
      (xy2dStep (2^m) x y).1.2 % 2^m = (xy2dStep (2^m) w z).1.2 % 2^m := by
  have hlx : Int.land x (2^m) = Int.land w (2^m) := land_two_pow_congr m hx
  have hly : Int.land y (2^m) = Int.land z (2^m) := land_two_pow_congr m hy
  have hxm : x % 2^m = w % 2^m := emod_pow_step m hx
  have hym : y % 2^m = z % 2^m := emod_pow_step m hy
  have hs1 : (2^m - 1 - y) % 2^m = (2^m - 1 - z) % 2^m :=
    Int.ModEq.sub (Int.ModEq.refl _) hym
  have hs2 : (2^m - 1 - x) % 2^m = (2^m - 1 - w) % 2^m :=
    Int.ModEq.sub (Int.ModEq.refl _) hxm
  simp only [xy2dStep, rot]
  rw [hlx, hly]
  by_cases h1 : (0:Int) < Int.land w (2^m) <;> by_cases h2 : (0:Int) < Int.land z (2^m) <;>
    simp [h1, h2, hxm, hym, hs1, hs2]

/-! ### Unfolding equations for the structural loop copies -/

theorem xy2dIters_zero (x y d : Int) : xy2dIters 0 x y d = d := rfl

theorem xy2dIters_succ (m : Nat) (x y d : Int) :
    xy2dIters (m+1) x y d
      = xy2dIters m (xy2dStep (2^m) x y).1.1 (xy2dStep (2^m) x y).1.2
          (d + (xy2dStep (2^m) x y).2) := rfl

theorem d2xyRun_zero (i : Nat) (t x y : Int) : d2xyRun 0 i t x y = (x, y) := rfl

theorem d2xyRun_succ (m i : Nat) (t x y : Int) :
    d2xyRun (m+1) i t x y
      = d2xyRun m (i+1) (Int.tdiv t 4) (d2xyStep (2^i) t (x, y)).1
          (d2xyStep (2^i) t (x, y)).2 := rfl

/-! ### Bridging the loop embeddings and their structural copies -/

theorem tdiv_pow_two (k : Nat) : Int.tdiv ((2:Int)^(k+1)) 2 = 2^k := by
  rw [pow_succ, Int.tdiv_eq_ediv (by positivity) (by norm_num),
    Int.mul_ediv_cancel _ (by norm_num)]

theorem xyToDLoop_eq_iters : ∀ (m : Nat) (x y d : Int),
    xyToDLoop (2^m) x y d = xy2dIters (m+1) x y d := by
  intro m
  induction m with
  | zero =>
    intro x y d
    rw [xyToDLoop, dif_pos (by norm_num : (0:Int) < 2^0)]
    rw [show Int.tdiv ((2:Int)^0) 2 = 0 from by decide, xyToDLoop,
      dif_neg (by norm_num : ¬ (0:Int) < 0)]
    rw [xy2dIters_succ, xy2dIters_zero]
  | succ k ih =>
    intro x y d
    rw [xyToDLoop, dif_pos (pow_pos (by norm_num : (0:Int) < 2) (k+1))]
    rw [tdiv_pow_two, ih, xy2dIters_succ (k+1) x y d]

theorem XYToD_pow2 (k : Nat) (x y : Int) : XYToD (2^k) x y = xy2dIters k x y 0 := by
  cases k with
  | zero =>
    unfold XYToD
    rw [show Int.tdiv ((2:Int)^0) 2 = 0 from by decide, xyToDLoop,
      dif_neg (by norm_num : ¬ (0:Int) < 0), xy2dIters_zero]
  | succ k =>
    unfold XYToD
    rw [tdiv_pow_two, xyToDLoop_eq_iters]

theorem dToXYLoop_eq_run : ∀ (c i : Nat) (t x y : Int),
    dToXYLoop (2^(i+c)) (2^i) t x y = d2xyRun c i t x y := by
  intro c
  induction c with
  | zero =>
    intro i t x y
    rw [dToXYLoop, dif_neg, d2xyRun_zero]
    rw [Nat.add_zero]
    simp
  | succ c ih =>
    intro i t x y
    have hlt : (2:Int)^i < 2^(i+(c+1)) := by
      apply pow_lt_pow_right₀ (by norm_num) (by omega)
    rw [dToXYLoop, dif_pos ⟨pow_pos (by norm_num) i, hlt⟩]
    rw [show ((2:Int)^i) * 2 = 2^(i+1) from (pow_succ 2 i).symm,
      show i + (c+1) = (i+1) + c from by omega, ih (i+1), d2xyRun_succ]

theorem DToXY_pow2 (k : Nat) (d : Int) : DToXY (2^k) d = d2xy k d := by
  unfold DToXY d2xy
  have h := dToXYLoop_eq_run k 0 d 0 0
  rw [Nat.zero_add, pow_zero] at h
  exact h

/-! ### The accumulator, congruence and range lemmas for the `XYToD` loop -/

theorem xy2dIters_acc : ∀ (m : Nat) (x y d : Int),
    xy2dIters m x y d = d + xy2dIters m x y 0 := by
  intro m
  induction m with
  | zero =>
    intro x y d
    rw [xy2dIters_zero, xy2dIters_zero, add_zero]
  | succ k ih =>
    intro x y d
    rw [xy2dIters_succ k x y d, xy2dIters_succ k x y 0]
    rw [ih ((xy2dStep (2^k) x y).1.1) ((xy2dStep (2^k) x y).1.2) (d + (xy2dStep (2^k) x y).2),
      ih ((xy2dStep (2^k) x y).1.1) ((xy2dStep (2^k) x y).1.2) (0 + (xy2dStep (2^k) x y).2)]
    ring

theorem xy2dIters_congr : ∀ (m : Nat) {x y w z : Int} (d : Int),
    x % 2^m = w % 2^m → y % 2^m = z % 2^m → xy2dIters m x y d = xy2dIters m w z d := by
  intro m
  induction m with
  | zero =>
    intro x y w z d hx hy
    rfl
  | succ k ih =>
    intro x y w z d hx hy
    obtain ⟨hd, h1, h2⟩ := xy2dStep_congr k hx hy
    rw [xy2dIters_succ k x y d, xy2dIters_succ k w z d, hd]
    exact ih _ h1 h2

theorem xy2dIters_range : ∀ (m : Nat) (x y d : Int), 0 ≤ x → x < 2^m → 0 ≤ y → y < 2^m →
    0 ≤ d → 0 ≤ xy2dIters m x y d ∧ xy2dIters m x y d < d + 4^m := by
  intro m
  induction m with
  | zero =>
    intro x y d _ _ _ _ hd
    rw [xy2dIters_zero, pow_zero]
    omega
  | succ k ih =>
    intro x y d hx0 hx hy0 hy hd
    have hp : (0:Int) < 2^k := pow_pos (by norm_num) k
    have hp4 : (0:Int) < 4^k := pow_pos (by norm_num) k
    have hps : ((2:Int)^(k+1)) = 2^k * 2 := pow_succ 2 k
    have h4 : ((4:Int)^(k+1)) = 4^k * 4 := pow_succ 4 k
    have h44 : ((2:Int)^k) * 2^k = 4^k := by rw [← mul_pow]; norm_num
    rw [xy2dIters_succ]
    by_cases hxc : x < 2^k <;> by_cases hyc : y < 2^k
    · rw [xy2dStep_00 k hx0 hxc hy0 hyc]
      dsimp only
      have hres := ih y x (d + 0) hy0 hyc hx0 hxc (by omega)
      omega
    · have hyhi : (2:Int)^k ≤ y := by omega
      have hyhi2 : y < 2^(k+1) := hy
      rw [xy2dStep_01 k hx0 hxc hyhi hyhi2, h44]
      dsimp only
      have hymod : y % 2^k = (y - 2^k) % 2^k := by
        have h' : y - 2^k = y + 2^k * (-1) := by ring
        rw [h', Int.add_mul_emod_self_left]
      rw [xy2dIters_congr k (d + 4^k) (Eq.refl (x % 2^k)) hymod]
      have hres := ih x (y - 2^k) (d + 4^k) hx0 hxc (by omega) (by omega) (by omega)
      omega
    · have hxhi : (2:Int)^k ≤ x := by omega
      rw [xy2dStep_10 k hxhi hx hy0 hyc, h44]
      dsimp only
      have hxmod : (2^k - 1 - x) % 2^k = (2^k * 2 - 1 - x) % 2^k := by
        have h' : 2^k * 2 - 1 - x = (2^k - 1 - x) + 2^k * 1 := by ring
        rw [h', Int.add_mul_emod_self_left]
      rw [xy2dIters_congr k (d + 4^k * 3) (Eq.refl ((2^k - 1 - y) % 2^k)) hxmod]
      have hres := ih (2^k - 1 - y) (2^k * 2 - 1 - x) (d + 4^k * 3)
        (by omega) (by omega) (by omega) (by omega) (by omega)
      omega
    · have hxhi : (2:Int)^k ≤ x := by omega
      have hyhi : (2:Int)^k ≤ y := by omega
      rw [xy2dStep_11 k hxhi hx hyhi hy, h44]
      dsimp only
      have hxmod : x % 2^k = (x - 2^k) % 2^k := by
        have h' : x - 2^k = x + 2^k * (-1) := by ring
        rw [h', Int.add_mul_emod_self_left]
      have hymod : y % 2^k = (y - 2^k) % 2^k := by
        have h' : y - 2^k = y + 2^k * (-1) := by ring
        rw [h', Int.add_mul_emod_self_left]
      rw [xy2dIters_congr k (d + 4^k * 2) hxmod hymod]
      have hres := ih (x - 2^k) (y - 2^k) (d + 4^k * 2)
        (by omega) (by omega) (by omega) (by omega) (by omega)
      omega

/-! ### The `DToXY` loop: peeling the last iteration, range, modularity -/

theorem d2xy_def (m : Nat) (t : Int) : d2xy m t = d2xyRun m 0 t 0 0 := rfl

theorem tdiv_tdiv_four {t : Int} (ht : 0 ≤ t) (m : Nat) :
    Int.tdiv (Int.tdiv t 4) (4^m) = Int.tdiv t (4^(m+1)) := by
  obtain ⟨a, rfl⟩ := Int.eq_ofNat_of_zero_le ht
  rw [← four_pow_cast m, ← four_pow_cast (m+1), show (4:Int) = ((4:Nat) : Int) from rfl,
    ← Int.ofNat_tdiv, ← Int.ofNat_tdiv, ← Int.ofNat_tdiv]
  norm_cast
  rw [Nat.div_div_eq_div_mul]
  congr 1
  ring

theorem d2xyRun_last : ∀ (m i : Nat) (t x y : Int), 0 ≤ t →
    d2xyRun (m+1) i t x y = d2xyStep (2^(i+m)) (Int.tdiv t (4^m)) (d2xyRun m i t x y) := by
  intro m
  induction m with
  | zero =>
    intro i t x y _
    rw [d2xyRun_succ, d2xyRun_zero, d2xyRun_zero, Nat.add_zero, pow_zero, Int.tdiv_one]
  | succ c ih =>
    intro i t x y ht
    rw [d2xyRun_succ, ih (i+1) (Int.tdiv t 4) _ _ (Int.tdiv_nonneg ht (by norm_num)),
      tdiv_tdiv_four ht c, show i + 1 + c = i + (c + 1) from by omega, ← d2xyRun_succ]

theorem d2xy_zero (t : Int) : d2xy 0 t = (0, 0) := rfl

theorem d2xy_succ (m : Nat) (t : Int) (ht : 0 ≤ t) :
    d2xy (m+1) t = d2xyStep (2^m) (Int.tdiv t (4^m)) (d2xy m t) := by
  rw [d2xy_def, d2xy_def, d2xyRun_last m 0 t 0 0 ht, Nat.zero_add]

/-- One `DToXY` iteration sends the `2^i` box into the `2^(i+1)` box. -/
theorem d2xyStep_range {x y : Int} (i : Nat) (u : Int) (hu : 0 ≤ u)
    (hx0 : 0 ≤ x) (hx : x < 2^i) (hy0 : 0 ≤ y) (hy : y < 2^i) :
    0 ≤ (d2xyStep (2^i) u (x, y)).1 ∧ (d2xyStep (2^i) u (x, y)).1 < 2^(i+1) ∧
      0 ≤ (d2xyStep (2^i) u (x, y)).2 ∧ (d2xyStep (2^i) u (x, y)).2 < 2^(i+1) := by
  have hps : ((2:Int)^(i+1)) = 2^i * 2 := pow_succ 2 i
  rw [d2xyStep_eval _ _ _ hu]
  rcases (by omega : u % 4 = 0 ∨ u % 4 = 1 ∨ u % 4 = 2 ∨ u % 4 = 3) with hc | hc | hc | hc <;>
    simp [hc] <;> omega

theorem d2xyRun_range : ∀ (m i : Nat) (t x y : Int), 0 ≤ t → 0 ≤ x → x < 2^i →
    0 ≤ y → y < 2^i →
    0 ≤ (d2xyRun m i t x y).1 ∧ (d2xyRun m i t x y).1 < 2^(i+m) ∧
      0 ≤ (d2xyRun m i t x y).2 ∧ (d2xyRun m i t x y).2 < 2^(i+m) := by
  intro m
  induction m with
  | zero =>
    intro i t x y _ hx0 hx hy0 hy
    rw [d2xyRun_zero, Nat.add_zero]
    exact ⟨hx0, hx, hy0, hy⟩
  | succ c ih =>
    intro i t x y ht hx0 hx hy0 hy
    rw [d2xyRun_succ]
    have hstep := d2xyStep_range i t ht hx0 hx hy0 hy
    have hrec := ih (i+1) (Int.tdiv t 4) _ _ (Int.tdiv_nonneg ht (by norm_num))
      hstep.1 hstep.2.1 hstep.2.2.1 hstep.2.2.2
    rw [show i + 1 + c = i + (c+1) from by omega] at hrec
    exact hrec

/-- The coordinates produced by `d2xy` always lie in the grid. -/
theorem d2xy_range (m : Nat) (t : Int) (ht : 0 ≤ t) :
    0 ≤ (d2xy m t).1 ∧ (d2xy m t).1 < 2^m ∧ 0 ≤ (d2xy m t).2 ∧ (d2xy m t).2 < 2^m := by
  rw [d2xy_def]
  have h := d2xyRun_range m 0 t 0 0 ht (le_refl 0) (by norm_num) (le_refl 0) (by norm_num)
  rw [Nat.zero_add] at h
  exact h

theorem d2xyStep_mod4 (s u v : Int) (p : Int × Int) (hu : 0 ≤ u) (hv : 0 ≤ v)
    (h : u % 4 = v % 4) : d2xyStep s u p = d2xyStep s v p := by
  rw [d2xyStep_eval s u p hu, d2xyStep_eval s v p hv, h]

theorem ediv_pow_emod_four (t : Int) (m : Nat) :
    t / 4^m % 4 = (t % 4^(m+1)) / 4^m % 4 := by
  conv_lhs => rw [← Int.ediv_add_emod t (4^(m+1))]
  have h1 : (4:Int)^(m+1) * (t / 4^(m+1)) + t % 4^(m+1)
      = t % 4^(m+1) + (4 * (t / 4^(m+1))) * 4^m := by ring
  rw [h1, Int.add_mul_ediv_right _ _ (pow_pos (by norm_num : (0:Int) < 4) m).ne']
  have h2 : t % 4^(m+1) / 4^m + 4 * (t / 4^(m+1))
      = t % 4^(m+1) / 4^m + (t / 4^(m+1)) * 4 := by ring
  rw [h2, Int.add_mul_emod_self]

/-- `d2xy` only depends on the distance modulo `4^m`. -/
theorem d2xy_mod : ∀ (m : Nat) (t : Int), 0 ≤ t → d2xy m t = d2xy m (t % 4^m) := by
  intro m
  induction m with
  | zero =>
    intro t _
    rfl
  | succ c ih =>
    intro t ht
    have hmodpos : 0 ≤ t % 4^(c+1) := Int.emod_nonneg t (by positivity)
    rw [d2xy_succ c t ht, d2xy_succ c (t % 4^(c+1)) hmodpos]
    have hinner : d2xy c (t % 4^(c+1)) = d2xy c t := by
      rw [ih (t % 4^(c+1)) hmodpos, ih t ht]
      congr 1
      exact Int.emod_emod_of_dvd t (pow_dvd_pow 4 (Nat.le_succ c))
    rw [hinner]
    apply d2xyStep_mod4
    · exact Int.tdiv_nonneg ht (by positivity)
    · exact Int.tdiv_nonneg hmodpos (by positivity)
    · rw [Int.tdiv_eq_ediv ht (by positivity), Int.tdiv_eq_ediv hmodpos (by positivity)]
      exact ediv_pow_emod_four t c

/-- The curve starts at the lower-left corner. -/
theorem d2xy_zero_eq : ∀ m : Nat, d2xy m 0 = (0, 0) := by
  intro m
  induction m with
  | zero => rfl
  | succ c ih =>
    rw [d2xy_succ c 0 (le_refl 0), ih, Int.zero_tdiv,
      d2xyStep_eval _ _ _ (le_refl 0)]
    norm_num

/-- The curve ends at the lower-right corner. -/
theorem d2xy_last : ∀ m : Nat, d2xy m (4^m - 1) = (2^m - 1, 0) := by
  intro m
  induction m with
  | zero => decide
  | succ c ih =>
    have h40 : (0:Int) < 4^c := pow_pos (by norm_num) c
    have h41 : ((4:Int)^(c+1)) = 4^c * 4 := pow_succ 4 c
    have ht : (0:Int) ≤ 4^(c+1) - 1 := by omega
    have hdec : (4:Int)^(c+1) - 1 = (4^c - 1) + 3 * 4^c := by rw [pow_succ]; ring
    have hu : Int.tdiv (4^(c+1) - 1) (4^c) = 3 := by
      rw [Int.tdiv_eq_ediv ht (by positivity), hdec,
        Int.add_mul_ediv_right _ _ h40.ne',
        Int.ediv_eq_zero_of_lt (by omega) (by omega)]
      norm_num
    have hinner : d2xy c (4^(c+1) - 1) = d2xy c (4^c - 1) := by
      rw [d2xy_mod c _ ht]
      congr 1
      rw [hdec, Int.add_mul_emod_self, Int.emod_eq_of_lt (by omega) (by omega)]
    rw [d2xy_succ c _ ht, hu, hinner, ih, d2xyStep_eval _ _ _ (by norm_num)]
    norm_num [Prod.ext_iff]
    rw [pow_succ]
    ring

/-! ### The round trip `XYToD ∘ DToXY = id` on the structural copies -/

/-- Running the coordinate-to-distance loop on the curve point of a valid
distance recovers that distance. -/
theorem xy2d_d2xy : ∀ (m : Nat) (t : Int), 0 ≤ t → t < 4^m →
    xy2dIters m (d2xy m t).1 (d2xy m t).2 0 = t := by
  intro m
  induction m with
  | zero =>
    intro t ht ht4
    rw [pow_zero] at ht4
    have ht0 : t = 0 := by omega
    rw [ht0]
    rfl
  | succ c ih =>
    intro t ht ht4
    have h40 : (0:Int) < 4^c := pow_pos (by norm_num) c
    have h41 : ((4:Int)^(c+1)) = 4^c * 4 := pow_succ 4 c
    have h2s : ((2:Int)^(c+1)) = 2^c * 2 := pow_succ 2 c
    have h44 : ((2:Int)^c) * 2^c = 4^c := by rw [← mul_pow]; norm_num
    have hp2 : (0:Int) < 2^c := pow_pos (by norm_num) c
    have hq4 : t / 4^c < 4 := Int.ediv_lt_of_lt_mul h40 (by omega)
    have hq0 : 0 ≤ t / 4^c := Int.ediv_nonneg ht (by positivity)
    have hr0 : 0 ≤ t % 4^c := Int.emod_nonneg t h40.ne'
    have hr4 : t % 4^c < 4^c := Int.emod_lt_of_pos t h40
    have heq : 4^c * (t / 4^c) + t % 4^c = t := Int.ediv_add_emod t (4^c)
    have hih := ih (t % 4^c) hr0 hr4
    have hrange := d2xy_range c (t % 4^c) hr0
    rw [d2xy_succ c t ht, Int.tdiv_eq_ediv ht (by positivity), d2xy_mod c t ht,
      d2xyStep_eval _ _ _ hq0]
    rcases (by omega : t / 4^c = 0 ∨ t / 4^c = 1 ∨ t / 4^c = 2 ∨ t / 4^c = 3)
      with hqv | hqv | hqv | hqv
    · rw [hqv] at heq ⊢
      rw [mul_zero, zero_add] at heq
      norm_num
      rw [xy2dIters_succ, xy2dStep_00 c hrange.2.2.1 hrange.2.2.2 hrange.1 hrange.2.1]
      dsimp only
      rw [(by norm_num : (0:Int) + 0 = 0), hih, heq]
    · rw [hqv] at heq ⊢
      rw [mul_one] at heq
      norm_num
      rw [xy2dIters_succ, xy2dStep_01 c hrange.1 hrange.2.1 (by omega) (by omega)]
      dsimp only
      have hymod : ((d2xy c (t % 4^c)).2 + 2^c) % 2^c = (d2xy c (t % 4^c)).2 % 2^c := by
        have hy' : (d2xy c (t % 4^c)).2 + 2^c = (d2xy c (t % 4^c)).2 + 2^c * 1 := by ring
        rw [hy', Int.add_mul_emod_self_left]
      rw [xy2dIters_congr c (0 + 2^c * 2^c) (Eq.refl ((d2xy c (t % 4^c)).1 % 2^c)) hymod]
      rw [xy2dIters_acc c ((d2xy c (t % 4^c)).1) ((d2xy c (t % 4^c)).2) (0 + 2^c * 2^c),
        hih, h44]
      omega
    · rw [hqv] at heq ⊢
      norm_num
      rw [xy2dIters_succ, xy2dStep_11 c (by omega) (by omega) (by omega) (by omega)]
      dsimp only
      have hxmod : ((d2xy c (t % 4^c)).1 + 2^c) % 2^c = (d2xy c (t % 4^c)).1 % 2^c := by
        have hx' : (d2xy c (t % 4^c)).1 + 2^c = (d2xy c (t % 4^c)).1 + 2^c * 1 := by ring
        rw [hx', Int.add_mul_emod_self_left]
      have hymod : ((d2xy c (t % 4^c)).2 + 2^c) % 2^c = (d2xy c (t % 4^c)).2 % 2^c := by
        have hy' : (d2xy c (t % 4^c)).2 + 2^c = (d2xy c (t % 4^c)).2 + 2^c * 1 := by ring
        rw [hy', Int.add_mul_emod_self_left]
      rw [xy2dIters_congr c (0 + 2^c * 2^c * 2) hxmod hymod]
      rw [xy2dIters_acc c ((d2xy c (t % 4^c)).1) ((d2xy c (t % 4^c)).2) (0 + 2^c * 2^c * 2),
        hih, h44]
      omega
    · rw [hqv] at heq ⊢
      norm_num
      rw [xy2dIters_succ, xy2dStep_10 c (by omega) (by omega) (by omega) (by omega)]
      dsimp only
      have hxeq : ((2:Int)^c - 1 - (2^c - 1 - (d2xy c (t % 4^c)).1)) % 2^c
          = (d2xy c (t % 4^c)).1 % 2^c := by
        have hx' : (2:Int)^c - 1 - (2^c - 1 - (d2xy c (t % 4^c)).1)
            = (d2xy c (t % 4^c)).1 := by ring
        rw [hx']
      have hyeq : ((2:Int)^c - 1 - (2 * 2^c - 1 - (d2xy c (t % 4^c)).2)) % 2^c
          = (d2xy c (t % 4^c)).2 % 2^c := by
        have hy' : (2:Int)^c - 1 - (2 * 2^c - 1 - (d2xy c (t % 4^c)).2)
            = (d2xy c (t % 4^c)).2 + 2^c * (-1) := by ring
        rw [hy', Int.add_mul_emod_self_left]
      rw [xy2dIters_congr c (0 + 2^c * 2^c * 3) hxeq hyeq]
      rw [xy2dIters_acc c ((d2xy c (t % 4^c)).1) ((d2xy c (t % 4^c)).2) (0 + 2^c * 2^c * 3),
        hih, h44]
      omega

/-! ### Surjectivity by counting, and the inverse round trip -/

/-- Every grid cell is visited by the curve. -/
theorem d2xy_surj (m : Nat) (x y : Int) (hx0 : 0 ≤ x) (hx : x < 2^m)
    (hy0 : 0 ≤ y) (hy : y < 2^m) :
    ∃ t : Int, 0 ≤ t ∧ t < 4^m ∧ d2xy m t = (x, y) := by
  classical
  have hinj : Set.InjOn (fun t => d2xy m t) (Finset.Ico (0:Int) (4^m)) := by
    intro a ha b hb hab
    simp only [Finset.coe_Ico, Set.mem_Ico] at ha hb
    have h1 := xy2d_d2xy m a ha.1 ha.2
    have h2 := xy2d_d2xy m b hb.1 hb.2
    simp only at hab
    rw [← h1, ← h2, hab]
  have hsub : (Finset.Ico (0:Int) (4^m)).image (fun t => d2xy m t)
      ⊆ Finset.Ico (0:Int) (2^m) ×ˢ Finset.Ico (0:Int) (2^m) := by
    intro p hp
    simp only [Finset.mem_image, Finset.mem_Ico] at hp
    obtain ⟨t, ⟨ht0, ht4⟩, rfl⟩ := hp
    have hr := d2xy_range m t ht0
    simp only [Finset.mem_product, Finset.mem_Ico]
    exact ⟨⟨hr.1, hr.2.1⟩, hr.2.2.1, hr.2.2.2⟩
  have t2 : ((2:Int)^m - 0).toNat = 2^m := by
    rw [sub_zero, ← two_pow_cast, Int.toNat_natCast]
  have t4 : ((4:Int)^m - 0).toNat = 4^m := by
    rw [sub_zero, ← four_pow_cast, Int.toNat_natCast]
  have hcard : (Finset.Ico (0:Int) (2^m) ×ˢ Finset.Ico (0:Int) (2^m)).card
      ≤ ((Finset.Ico (0:Int) (4^m)).image (fun t => d2xy m t)).card := by
    rw [Finset.card_image_of_injOn hinj, Finset.card_product, Int.card_Ico, Int.card_Ico,
      t2, t4, ← mul_pow]
    norm_num
  have himg := Finset.eq_of_subset_of_card_le hsub hcard
  have hmem : (x, y) ∈ Finset.Ico (0:Int) (2^m) ×ˢ Finset.Ico (0:Int) (2^m) := by
    simp only [Finset.mem_product, Finset.mem_Ico]
    exact ⟨⟨hx0, hx⟩, hy0, hy⟩
  rw [← himg] at hmem
  simp only [Finset.mem_image, Finset.mem_Ico] at hmem
  obtain ⟨t, htD, hte⟩ := hmem
  exact ⟨t, htD.1, htD.2, hte⟩

/-- Round trip in the other direction, on the structural copies. -/
theorem d2xy_xy2d (m : Nat) (x y : Int) (hx0 : 0 ≤ x) (hx : x < 2^m)
    (hy0 : 0 ≤ y) (hy : y < 2^m) :
    d2xy m (xy2dIters m x y 0) = (x, y) := by
  obtain ⟨t, ht0, ht4, hte⟩ := d2xy_surj m x y hx0 hx hy0 hy
  have h2 := xy2d_d2xy m t ht0 ht4
  rw [hte] at h2
  dsimp only at h2
  rw [h2, hte]

/-- The distance produced by the coordinate-to-distance loop is in range. -/
theorem xy2d_range (m : Nat) (x y : Int) (hx0 : 0 ≤ x) (hx : x < 2^m)
    (hy0 : 0 ≤ y) (hy : y < 2^m) :
    0 ≤ xy2dIters m x y 0 ∧ xy2dIters m x y 0 < 4^m := by
  have h := xy2dIters_range m x y 0 hx0 hx hy0 hy (le_refl 0)
  omega

/-! ### Adjacency of consecutive curve points -/

theorem d2xy_adjacent : ∀ (m : Nat) (t : Int), 0 ≤ t → t + 1 < 4^m →
    ((d2xy m (t+1)).1 - (d2xy m t).1)^2 + ((d2xy m (t+1)).2 - (d2xy m t).2)^2 = 1 := by
  intro m
  induction m with
  | zero =>
    intro t ht h4
    rw [pow_zero] at h4
    omega
  | succ c ih =>
    intro t ht h4
    have h40 : (0:Int) < 4^c := pow_pos (by norm_num) c
    have h41 : ((4:Int)^(c+1)) = 4^c * 4 := pow_succ 4 c
    have hq0 : 0 ≤ t / 4^c := Int.ediv_nonneg ht (by positivity)
    have hq4 : t / 4^c < 4 := Int.ediv_lt_of_lt_mul h40 (by omega)
    have hr0 : 0 ≤ t % 4^c := Int.emod_nonneg t h40.ne'
    have hr4 : t % 4^c < 4^c := Int.emod_lt_of_pos t h40
    have heq : 4^c * (t / 4^c) + t % 4^c = t := Int.ediv_add_emod t (4^c)
    have hdec2 : t + 1 = (t % 4^c + 1) + (t / 4^c) * 4^c := by linear_combination -heq
    rw [d2xy_succ c t ht, d2xy_succ c (t+1) (by omega),
      Int.tdiv_eq_ediv (by omega : (0:Int) ≤ t + 1) (by positivity),
      Int.tdiv_eq_ediv ht (by positivity),
      d2xy_mod c t ht, d2xy_mod c (t+1) (by omega)]
    by_cases hb : t % 4^c = 4^c - 1
    · have hdec3 : t + 1 = 0 + (t / 4^c + 1) * 4^c := by linear_combination -heq + hb
      have hq1 : (t+1) / 4^c = t / 4^c + 1 := by
        rw [hdec3, Int.add_mul_ediv_right _ _ h40.ne', Int.zero_ediv, zero_add]
      have hrem1 : (t+1) % 4^c = 0 := by
        rw [hdec3, Int.add_mul_emod_self, Int.zero_emod]
      have hqne : t / 4^c ≠ 3 := by
        intro h3
        rw [h3] at heq
        omega
      rw [hq1, hrem1, hb, d2xy_zero_eq, d2xy_last]
      rcases (by omega : t / 4^c = 0 ∨ t / 4^c = 1 ∨ t / 4^c = 2) with hqv | hqv | hqv <;>
        rw [hqv] <;>
        rw [d2xyStep_eval _ _ _ (by norm_num), d2xyStep_eval _ _ _ (by norm_num)] <;>
        norm_num <;> ring
    · have hq1 : (t+1) / 4^c = t / 4^c := by
        rw [hdec2, Int.add_mul_ediv_right _ _ h40.ne',
          Int.ediv_eq_zero_of_lt (by omega) (by omega), zero_add]
      have hrem1 : (t+1) % 4^c = t % 4^c + 1 := by
        rw [hdec2, Int.add_mul_emod_self, Int.emod_eq_of_lt (by omega) (by omega)]
      rw [hq1, hrem1]
      have hadj := ih (t % 4^c) hr0 (by omega)
      rcases (by omega : t / 4^c = 0 ∨ t / 4^c = 1 ∨ t / 4^c = 2 ∨ t / 4^c = 3)
        with hqv | hqv | hqv | hqv <;> rw [hqv] <;>
        rw [d2xyStep_eval _ _ _ (by norm_num), d2xyStep_eval _ _ _ (by norm_num)] <;>
        norm_num <;> linear_combination hadj

/-! ### Termination of the literal Go loops -/

theorem xyToDFuel_succ (g : Nat) (s x y d : Int) :
    xyToDFuel (g+1) s x y d
      = if 0 < s then
          xyToDFuel g (Int.tdiv s 2) (xy2dStep s x y).1.1 (xy2dStep s x y).1.2
            (d + (xy2dStep s x y).2)
        else some d := rfl

theorem dToXYFuel_succ (g : Nat) (n s t x y : Int) :
    dToXYFuel (g+1) n s t x y
      = if s < n then
          dToXYFuel g n (s * 2) (Int.tdiv t 4) (d2xyStep s t (x, y)).1
            (d2xyStep s t (x, y)).2
        else some (x, y) := rfl

/-- With fuel exceeding `s`, the fueled `XYToD` loop halts and agrees with
the loop embedding. -/
theorem xyToDFuel_sufficient : ∀ (f : Nat) (s x y d : Int), s.toNat < f →
    xyToDFuel f s x y d = some (xyToDLoop s x y d) := by
  intro f
  induction f with
  | zero =>
    intro s x y d h
    omega
  | succ g ih =>
    intro s x y d h
    by_cases hs : 0 < s
    · rw [xyToDFuel_succ, if_pos hs, xyToDLoop, dif_pos hs]
      apply ih
      have htd : Int.tdiv s 2 = s / 2 := Int.tdiv_eq_ediv (le_of_lt hs) (by norm_num)
      rw [htd]
      omega
    · rw [xyToDFuel_succ, if_neg hs, xyToDLoop, dif_neg hs]

/-- With enough doublings available, the fueled `DToXY` loop halts and
agrees with the loop embedding. -/
theorem dToXYFuel_sufficient : ∀ (f : Nat) (n s t x y : Int), 0 < s → n ≤ s * 2^f →
    dToXYFuel (f+1) n s t x y = some (dToXYLoop n s t x y) := by
  intro f
  induction f with
  | zero =>
    intro n s t x y hs hb
    rw [pow_zero, mul_one] at hb
    rw [dToXYFuel_succ, if_neg (by omega), dToXYLoop, dif_neg (by omega)]
  | succ g ih =>
    intro n s t x y hs hb
    by_cases hlt : s < n
    · rw [dToXYFuel_succ, if_pos hlt, dToXYLoop, dif_pos ⟨hs, hlt⟩]
      apply ih
      · omega
      · have hsplit : s * 2^(g+1) = s * 2 * 2^g := by ring
        rw [hsplit] at hb
        exact hb
    · rw [dToXYFuel_succ, if_neg hlt, dToXYLoop, dif_neg (fun hcon => hlt hcon.2)]

/-! ### The claims -/

/-- C1: for every grid order `n = 2^k` (a power of two) and coordinates
`x, y` each in `[0, n-1]`, `DToXY(n, XYToD(n, x, y)) = (x, y)`. -/
theorem claim1_roundtrip (k : Nat) (x y : Int)
    (hx0 : 0 ≤ x) (hx1 : x ≤ 2^k - 1) (hy0 : 0 ≤ y) (hy1 : y ≤ 2^k - 1) :
    DToXY (2^k) (XYToD (2^k) x y) = (x, y) := by
  rw [XYToD_pow2, DToXY_pow2]
  exact d2xy_xy2d k x y hx0 (by omega) hy0 (by omega)

theorem claim1_roundtrip_witness :
    (0:Int) ≤ 3 ∧ (3:Int) ≤ 2^2 - 1 ∧ (0:Int) ≤ 1 ∧ (1:Int) ≤ 2^2 - 1 ∧
      DToXY (2^2) (XYToD (2^2) 3 1) = (3, 1) :=
  ⟨by norm_num, by norm_num, by norm_num, by norm_num,
    claim1_roundtrip 2 3 1 (by norm_num) (by norm_num) (by norm_num) (by norm_num)⟩

/-- C2: for every grid order `n = 2^k` (a power of two) and distance
`d ∈ [0, n^2-1]`, `XYToD(n, DToXY(n, d)) = d`. -/
theorem claim2_roundtrip (k : Nat) (d : Int) (hd0 : 0 ≤ d) (hd1 : d ≤ (2^k)^2 - 1) :
    XYToD (2^k) (DToXY (2^k) d).1 (DToXY (2^k) d).2 = d := by
  have hsq := pow2_sq k
  rw [DToXY_pow2, XYToD_pow2]
  exact xy2d_d2xy k d hd0 (by omega)

theorem claim2_roundtrip_witness :
    (0:Int) ≤ 9 ∧ (9:Int) ≤ ((2:Int)^2)^2 - 1 ∧
      XYToD (2^2) (DToXY (2^2) 9).1 (DToXY (2^2) 9).2 = 9 :=
  ⟨by norm_num, by norm_num, claim2_roundtrip 2 9 (by norm_num) (by norm_num)⟩

/-- C3 (counterexample): the claimed value `DToXY(4, 1) = (0, 1)` is
false — the code returns `(1, 0)`: at scale `1` the bits are
`rx = 0, ry = 1`, giving `(0, 1)`, and at scale `2` the bits are
`rx = ry = 0`, so `rot` swaps the coordinates. -/
theorem claim3_counterexample : ¬ DToXY 4 1 = ((0, 1) : Int × Int) := by
  have h4 : (4:Int) = 2^2 := by norm_num
  rw [h4, DToXY_pow2]
  decide

/-- C3 (amended): for `n = 4`, `DToXY` maps `d = 0, 1, 2, 3, 4` to
`(0,0), (1,0), (1,1), (0,1), (0,2)` respectively — the transpose (swap of
`x` and `y`) of the orientation stated in the claim. -/
theorem claim3_known_shape :
    DToXY 4 0 = (0, 0) ∧ DToXY 4 1 = (1, 0) ∧ DToXY 4 2 = (1, 1) ∧
      DToXY 4 3 = (0, 1) ∧ DToXY 4 4 = (0, 2) := by
  have h4 : (4:Int) = 2^2 := by norm_num
  refine ⟨?_, ?_, ?_, ?_, ?_⟩ <;> rw [h4, DToXY_pow2] <;> decide

/-- C4: for every grid order `n = 2^k` (a power of two), the map
`(x, y) ↦ XYToD(n, x, y)` is injective on `[0, n-1]^2`, and every distance
in `[0, n^2-1]` is attained from that square: it is a bijection onto the
full distance range. -/
theorem claim4_bijection (k : Nat) :
    Set.InjOn (fun p : Int × Int => XYToD (2^k) p.1 p.2)
      {p : Int × Int | 0 ≤ p.1 ∧ p.1 ≤ 2^k - 1 ∧ 0 ≤ p.2 ∧ p.2 ≤ 2^k - 1} ∧
    ∀ d : Int, 0 ≤ d → d ≤ (2^k)^2 - 1 →
      ∃ x y : Int, (0 ≤ x ∧ x ≤ 2^k - 1 ∧ 0 ≤ y ∧ y ≤ 2^k - 1) ∧ XYToD (2^k) x y = d := by
  have hsq := pow2_sq k
  constructor
  · intro p hp q hq hpq
    simp only [Set.mem_setOf_eq] at hp hq
    simp only at hpq
    rw [XYToD_pow2, XYToD_pow2] at hpq
    have h1 := d2xy_xy2d k p.1 p.2 hp.1 (by omega) hp.2.2.1 (by omega)
    have h2 := d2xy_xy2d k q.1 q.2 hq.1 (by omega) hq.2.2.1 (by omega)
    rw [hpq] at h1
    have hpair : (p.1, p.2) = (q.1, q.2) := h1.symm.trans h2
    exact (Prod.mk.eta.symm.trans hpair).trans Prod.mk.eta
  · intro d hd0 hd1
    have hd4 : d < 4^k := by omega
    obtain ⟨rng1, rng2, rng3, rng4⟩ := d2xy_range k d hd0
    refine ⟨(d2xy k d).1, (d2xy k d).2, ⟨rng1, by omega, rng3, by omega⟩, ?_⟩
    rw [XYToD_pow2]
    exact xy2d_d2xy k d hd0 hd4

theorem claim4_bijection_witness :
    ∃ x y : Int, (0 ≤ x ∧ x ≤ 2^1 - 1 ∧ 0 ≤ y ∧ y ≤ 2^1 - 1) ∧ XYToD (2^1) x y = 2 :=
  (claim4_bijection 1).2 2 (by norm_num) (by norm_num)

/-- C5: for every grid order `n = 2^k` (a power of two) and every
`d ∈ [0, n^2-2]`, the cells for `d` and `d+1` are at squared Euclidean
distance exactly `1`. -/
theorem claim5_locality (k : Nat) (d : Int) (hd0 : 0 ≤ d) (hd1 : d ≤ (2^k)^2 - 2) :
    ((DToXY (2^k) (d+1)).1 - (DToXY (2^k) d).1)^2
      + ((DToXY (2^k) (d+1)).2 - (DToXY (2^k) d).2)^2 = 1 := by
  have hsq := pow2_sq k
  rw [DToXY_pow2, DToXY_pow2]
  exact d2xy_adjacent k d hd0 (by omega)

theorem claim5_locality_witness :
    (0:Int) ≤ 7 ∧ (7:Int) ≤ ((2:Int)^2)^2 - 2 ∧
      ((DToXY (2^2) (7+1)).1 - (DToXY (2^2) 7).1)^2
        + ((DToXY (2^2) (7+1)).2 - (DToXY (2^2) 7).2)^2 = 1 :=
  ⟨by norm_num, by norm_num, claim5_locality 2 7 (by norm_num) (by norm_num)⟩

/-- C6: for every grid order `n = 2^k` (a power of two) and coordinates
`x, y` each in `[0, n-1]`, the distance `XYToD(n, x, y)` lies in
`[0, n^2-1]`. -/
theorem claim6_range (k : Nat) (x y : Int)
    (hx0 : 0 ≤ x) (hx1 : x ≤ 2^k - 1) (hy0 : 0 ≤ y) (hy1 : y ≤ 2^k - 1) :
    0 ≤ XYToD (2^k) x y ∧ XYToD (2^k) x y ≤ (2^k)^2 - 1 := by
  have hsq := pow2_sq k
  rw [XYToD_pow2]
  have hrng := xy2d_range k x y hx0 (by omega) hy0 (by omega)
  omega

theorem claim6_range_witness :
    (0:Int) ≤ 2 ∧ (2:Int) ≤ 2^2 - 1 ∧ (0:Int) ≤ 3 ∧ (3:Int) ≤ 2^2 - 1 ∧
      0 ≤ XYToD (2^2) 2 3 ∧ XYToD (2^2) 2 3 ≤ ((2:Int)^2)^2 - 1 :=
  ⟨by norm_num, by norm_num, by norm_num, by norm_num,
    claim6_range 2 2 3 (by norm_num) (by norm_num) (by norm_num) (by norm_num)⟩

/-- C7: the shared transform `rot(n, rx, ry, x, y)`: if `ry = 1` it leaves
the pair unchanged; if `ry = 0` and `rx = 1` it reflects both coordinates
(`x = n-1-x`, `y = n-1-y`) and then swaps them; if `ry = 0` and `rx = 0`
it only swaps them — for all integer inputs. -/
theorem claim7_rot (n rx ry x y : Int) :
    (ry = 1 → rot n rx ry x y = (x, y)) ∧
    (ry = 0 → rx = 1 → rot n rx ry x y = (n - 1 - y, n - 1 - x)) ∧
    (ry = 0 → rx = 0 → rot n rx ry x y = (y, x)) := by
  refine ⟨?_, ?_, ?_⟩
  · intro h1
    subst h1
    simp [rot]
  · intro h1 h2
    subst h1
    subst h2
    simp [rot]
  · intro h1 h2
    subst h1
    subst h2
    simp [rot]

theorem claim7_rot_witness :
    rot 5 0 1 2 3 = (2, 3) ∧ rot 5 1 0 2 3 = (5 - 1 - 3, 5 - 1 - 2) ∧
      rot 5 0 0 2 3 = (3, 2) :=
  ⟨(claim7_rot 5 0 1 2 3).1 rfl, (claim7_rot 5 1 0 2 3).2.1 rfl rfl,
    (claim7_rot 5 0 0 2 3).2.2 rfl rfl⟩

/-- C8: both loops terminate on all integer inputs, including inputs
violating the preconditions: for every `n, x, y, d` there is a finite fuel
with which the literal fueled copies of the Go loops halt, and they return
the values of the total functions `XYToD` and `DToXY`. -/
theorem claim8_termination (n x y d : Int) :
    (∃ f : Nat, xyToDFuel f (Int.tdiv n 2) x y 0 = some (XYToD n x y)) ∧
    (∃ f : Nat, dToXYFuel f n 1 d 0 0 = some (DToXY n d)) := by
  constructor
  · refine ⟨(Int.tdiv n 2).toNat + 1, ?_⟩
    unfold XYToD
    exact xyToDFuel_sufficient ((Int.tdiv n 2).toNat + 1) (Int.tdiv n 2) x y 0 (by omega)
  · refine ⟨n.toNat + 1, ?_⟩
    unfold DToXY
    apply dToXYFuel_sufficient n.toNat n 1 d 0 0 (by norm_num)
    have h1 : (n:Int) ≤ (n.toNat : Int) := Int.self_le_toNat n
    have h2 : ((n.toNat : Nat) : Int) ≤ ((2^(n.toNat) : Nat) : Int) := by
      exact_mod_cast (Nat.lt_two_pow n.toNat).le
    rw [two_pow_cast] at h2
    rw [one_mul]
    omega

/-- C9: for every grid order `n = 2^k` with `k ≥ 0` and every integer
`d ≥ 0` — including out-of-range `d ≥ n^2` — the pair returned by
`DToXY(n, d)` satisfies `0 ≤ x ≤ n-1` and `0 ≤ y ≤ n-1`. -/
theorem claim9_output_range (k : Nat) (d : Int) (hd : 0 ≤ d) :
    0 ≤ (DToXY (2^k) d).1 ∧ (DToXY (2^k) d).1 ≤ 2^k - 1 ∧
      0 ≤ (DToXY (2^k) d).2 ∧ (DToXY (2^k) d).2 ≤ 2^k - 1 := by
  rw [DToXY_pow2]
  have hrng := d2xy_range k d hd
  omega

theorem claim9_output_range_witness :
    (0:Int) ≤ 7 ∧ 0 ≤ (DToXY (2^1) 7).1 ∧ (DToXY (2^1) 7).1 ≤ 2^1 - 1 ∧
      0 ≤ (DToXY (2^1) 7).2 ∧ (DToXY (2^1) 7).2 ≤ 2^1 - 1 :=
  ⟨by norm_num, claim9_output_range 1 7 (by norm_num)⟩

/-- C10: for every grid order `n = 2^k` with `k ≥ 0` and every integer
`d ≥ 0`, `DToXY(n, d) = DToXY(n, d mod n^2)`. -/
theorem claim10_mod (k : Nat) (d : Int) (hd : 0 ≤ d) :
    DToXY (2^k) d = DToXY (2^k) (d % (2^k)^2) := by
  rw [DToXY_pow2, DToXY_pow2, pow2_sq]
  exact d2xy_mod k d hd

theorem claim10_mod_witness :
    (0:Int) ≤ 11 ∧ DToXY (2^1) 11 = DToXY (2^1) (11 % ((2:Int)^1)^2) :=
  ⟨by norm_num, claim10_mod 1 11 (by norm_num)⟩

end Hilbert
